import Mathlib

/-
Verification of the bias-metric computation engine of
`unintended_ml_bias/model_bias_analysis.py`.

The scored dataset (a pandas DataFrame) is embedded as a list of rows; a
row carries its numeric columns (one model score per model name) and its
boolean columns (the label column and one flag column per subgroup) as
total functions from column names.  Scores are rationals (the Python code
works with IEEE floats, but every claim here is order/arithmetic only, so
ℚ is a faithful carrier).  Python exceptions are embedded with `Except`,
`None` results with `Option`, and the NaN sentinel returned by
`compute_auc` with `Option.none`.
-/

namespace ModelBiasAnalysis

/-- A row of the scored data frame: `numCol` gives the numeric columns
(model scores, keyed by model name), `boolCol` the boolean columns
(label columns and subgroup-membership flags, keyed by column name). -/
structure Row where
  numCol : String → ℚ
  boolCol : String → Bool

/-- Python exceptions raised by the embedded functions. -/
inductive PyErr where
  | valueError
  | keyError
  | zeroDivisionError
  | assertionError
  deriving DecidableEq, Repr

/-- The four confusion-matrix counts. -/
structure ConfusionCounts where
  tp : ℕ
  tn : ℕ
  fp : ℕ
  fn : ℕ
  deriving DecidableEq, Repr

/-- Embeds `confusion_matrix_counts(df, score_col, label_col, threshold)`:
tp counts rows with `score >= threshold` and label true, tn rows with
`score < threshold` and label false, fp rows with `score >= threshold`
and label false, fn rows with `score < threshold` and label true. -/
def confusion_matrix_counts (df : List Row) (score_col label_col : String)
    (threshold : ℚ) : ConfusionCounts where
  tp := df.countP fun r => decide (threshold ≤ r.numCol score_col) && r.boolCol label_col
  tn := df.countP fun r => decide (r.numCol score_col < threshold) && !r.boolCol label_col
  fp := df.countP fun r => decide (threshold ≤ r.numCol score_col) && !r.boolCol label_col
  fn := df.countP fun r => decide (r.numCol score_col < threshold) && r.boolCol label_col

/-- C7: the four counts returned by `confusion_matrix_counts` are the four
cells of the score-threshold/label partition, and they always sum to the
size of the subset. -/
theorem confusion_matrix_counts_partition (df : List Row)
    (score_col label_col : String) (threshold : ℚ) :
    (confusion_matrix_counts df score_col label_col threshold).tp
      = df.countP (fun r => decide (threshold ≤ r.numCol score_col) && r.boolCol label_col) ∧
    (confusion_matrix_counts df score_col label_col threshold).tn
      = df.countP (fun r => decide (r.numCol score_col < threshold) && !r.boolCol label_col) ∧
    (confusion_matrix_counts df score_col label_col threshold).fp
      = df.countP (fun r => decide (threshold ≤ r.numCol score_col) && !r.boolCol label_col) ∧
    (confusion_matrix_counts df score_col label_col threshold).fn
      = df.countP (fun r => decide (r.numCol score_col < threshold) && r.boolCol label_col) ∧
    (confusion_matrix_counts df score_col label_col threshold).tp
      + (confusion_matrix_counts df score_col label_col threshold).tn
      + (confusion_matrix_counts df score_col label_col threshold).fp
      + (confusion_matrix_counts df score_col label_col threshold).fn
      = df.length := by
  refine ⟨rfl, rfl, rfl, rfl, ?_⟩
  induction df with
  | nil => rfl
  | cons r rest ih =>
    simp only [confusion_matrix_counts, List.countP_cons, List.length_cons] at *
    rcases le_or_lt threshold (r.numCol score_col) with h | h
    · have h1 : decide (threshold ≤ r.numCol score_col) = true := by simpa using h
      have h2 : decide (r.numCol score_col < threshold) = false := by
        simpa using not_lt.mpr h
      cases hb : r.boolCol label_col <;> simp [h1, h2, hb] <;> omega
    · have h1 : decide (threshold ≤ r.numCol score_col) = false := by
        simpa using not_le.mpr h
      have h2 : decide (r.numCol score_col < threshold) = true := by simpa using h
      cases hb : r.boolCol label_col <;> simp [h1, h2, hb] <;> omega

/-- Character-wise longest common prefix of two character lists. -/
def lcpChars : List Char → List Char → List Char
  | a :: as, b :: bs => if a = b then a :: lcpChars as bs else []
  | _, [] => []
  | [], _ => []

/-- Modelled from the spec: `os.path.commonprefix` (Python standard
library, not part of this repository) returns the longest common string
prefix of a list of strings, and the empty string for an empty list. -/
def commonprefix (names : List String) : String :=
  match names with
  | [] => ""
  | s :: ss => ⟨ss.foldl (fun acc t => lcpChars acc t.data) s.data⟩

/-- `List Char` version of Python's `str.strip(c)`: removes every leading
and trailing occurrence of the character `c`. -/
def stripChars (c : Char) (s : List Char) : List Char :=
  ((s.dropWhile (· = c)).reverse.dropWhile (· = c)).reverse

/-- Python's `str.strip('_')`. -/
def stripUnderscores (s : String) : String := ⟨stripChars '_' s.data⟩

/-- Embeds `model_family_name(model_names)`: the common prefix of the
names, stripped of leading/trailing `'_'`; raises `ValueError` when the
common prefix is empty. -/
def model_family_name (model_names : List String) : Except PyErr String :=
  let p := commonprefix model_names
  if p = "" then .error .valueError else .ok (stripUnderscores p)

theorem lcpChars_prefix_left : ∀ a b : List Char, lcpChars a b <+: a := by
  intro a
  induction a with
  | nil => intro b; cases b <;> simp [lcpChars]
  | cons x xs ih =>
    intro b
    cases b with
    | nil => simp [lcpChars]
    | cons y ys =>
      by_cases h : x = y
      · simpa [lcpChars, h] using ih ys
      · simp [lcpChars, h]

theorem lcpChars_prefix_right : ∀ a b : List Char, lcpChars a b <+: b := by
  intro a
  induction a with
  | nil => intro b; cases b <;> simp [lcpChars]
  | cons x xs ih =>
    intro b
    cases b with
    | nil => simp [lcpChars]
    | cons y ys =>
      by_cases h : x = y
      · subst h; simpa [lcpChars] using ih ys
      · simp [lcpChars, h]

theorem lcpChars_greatest : ∀ p a b : List Char, p <+: a → p <+: b →
    p <+: lcpChars a b := by
  intro p
  induction p with
  | nil => intro a b _ _; simp
  | cons x xs ih =>
    intro a b ha hb
    rcases a with _ | ⟨y, ys⟩
    · simp at ha
    · rcases b with _ | ⟨z, zs⟩
      · simp at hb
      · rcases List.cons_prefix_cons.mp ha with ⟨rfl, ha'⟩
        rcases List.cons_prefix_cons.mp hb with ⟨rfl, hb'⟩
        simpa [lcpChars] using ih ys zs ha' hb'

theorem commonprefix_foldl_spec (s0 : List Char) (ss : List String) :
    (∀ t ∈ ss, (ss.foldl (fun acc t => lcpChars acc t.data) s0) <+: t.data) ∧
    (ss.foldl (fun acc t => lcpChars acc t.data) s0) <+: s0 ∧
    (∀ p : List Char, p <+: s0 → (∀ t ∈ ss, p <+: t.data) →
      p <+: (ss.foldl (fun acc t => lcpChars acc t.data) s0)) := by
  induction ss generalizing s0 with
  | nil => exact ⟨by simp, by simp, fun p hp _ => by simpa using hp⟩
  | cons t ts ih =>
    obtain ⟨h1, h2, h3⟩ := ih (lcpChars s0 t.data)
    refine ⟨?_, ?_, ?_⟩
    · intro u hu
      rcases List.mem_cons.mp hu with rfl | hu'
      · exact List.foldl_cons .. ▸ h2.trans (lcpChars_prefix_right s0 u.data)
      · simpa using h1 u hu'
    · exact List.foldl_cons .. ▸ h2.trans (lcpChars_prefix_left s0 t.data)
    · intro p hp hall
      have hpt : p <+: t.data := hall t (List.mem_cons_self t ts)
      simpa using h3 p (lcpChars_greatest p s0 t.data hp hpt)
        (fun u hu => hall u (List.mem_cons_of_mem t hu))

/-- C6: for every non-empty list of model names, `commonprefix` is the
longest common prefix (it is a prefix of every name and every common
prefix is a prefix of it), `model_family_name` raises exactly when that
prefix is empty and otherwise returns it trimmed of `'_'` separators;
`["bert_toxicity", "bert_identity"]` yields `"bert"` and `["a", "b"]`
raises. -/
theorem model_family_name_spec (names : List String) (hne : names ≠ []) :
    (∀ s ∈ names, ( commonprefix names).data <+: s.data) ∧
    (∀ p : List Char, (∀ s ∈ names, p <+: s.data) →
      p <+: ( commonprefix names).data) ∧
    ( commonprefix names = "" → model_family_name names = .error .valueError) ∧
    ( commonprefix names ≠ "" →
      model_family_name names = .ok (stripUnderscores ( commonprefix names))) ∧
    model_family_name ["bert_toxicity", "bert_identity"] = .ok "bert" ∧
    model_family_name ["a", "b"] = .error .valueError := by
  rcases names with _ | ⟨s, ss⟩
  · exact absurd rfl hne
  obtain ⟨h1, h2, h3⟩ := commonprefix_foldl_spec s.data ss
  refine ⟨?_, ?_, ?_, ?_, by rfl, by rfl⟩
  · intro u hu
    rcases List.mem_cons.mp hu with rfl | hu'
    · exact h2
    · exact h1 u hu'
  · intro p hall
    exact h3 p (hall s (List.mem_cons_self s ss))
      (fun u hu => hall u (List.mem_cons_of_mem s hu))
  · intro h
    simp [model_family_name, h]
  · intro h
    simp [model_family_name, h]

/-- Witness for C6 at the spec's two concrete examples. -/
theorem model_family_name_spec_witness :
    model_family_name ["bert_toxicity", "bert_identity"] = .ok "bert" ∧
    model_family_name ["a", "b"] = .error .valueError :=
  ⟨(model_family_name_spec ["x"] (by decide)).2.2.2.2.1,
   (model_family_name_spec ["x"] (by decide)).2.2.2.2.2⟩

/-- C9: when the common prefix of the model names is non-empty but
consists entirely of `'_'` separator characters, `model_family_name`
does not raise: the emptiness check happens before stripping, so it
returns the empty string. -/
theorem model_family_name_separator_only (names : List String)
    (h1 : commonprefix names ≠ "")
    (h2 : ∀ c ∈ ( commonprefix names).data, c = '_') :
    model_family_name names = .ok "" := by
  have hd : ( commonprefix names).data.dropWhile (· = '_') = [] :=
    List.dropWhile_eq_nil_iff.mpr (by simpa [eq_comm] using h2)
  have : stripUnderscores ( commonprefix names) = "" := by
    simp [stripUnderscores, stripChars, hd]
  simp [model_family_name, h1, this]

/-- Witness for C9: `["_a", "_b"]` has common prefix `"_"` and family
name `""`, with no error. -/
theorem model_family_name_separator_only_witness :
    model_family_name ["_a", "_b"] = .ok "" :=
  model_family_name_separator_only ["_a", "_b"] (by decide) (by decide)

/-- Embeds `positive_rates(df, score_col, label_col, thresholds)`: walks the
thresholds in order; at the first threshold where a category total
(`tp+fn` or `fp+tn`) is zero the whole computation returns `(None, None)`
(embedded as `none`); otherwise it returns the per-threshold `fpr` and
`tpr` sequences (in that order, as in the source's `return fpr, tpr`). -/
def positive_rates (df : List Row) (score_col label_col : String) :
    List ℚ → Option (List ℚ × List ℚ)
  | [] => some ([], [])
  | t :: ts =>
    let c := confusion_matrix_counts df score_col label_col t
    if c.tp + c.fn = 0 ∨ c.fp + c.tn = 0 then none
    else
      match positive_rates df score_col label_col ts with
      | none => none
      | some (fpr, tpr) =>
          some ((c.fp : ℚ) / ((c.fp : ℚ) + (c.tn : ℚ)) :: fpr,
                (c.tp : ℚ) / ((c.tp : ℚ) + (c.fn : ℚ)) :: tpr)

/-- C5: `positive_rates` returns `(None, None)` exactly when some threshold
has a zero category total (the all-or-nothing policy), and any successful
result carries one fpr entry and one tpr entry per threshold. -/
theorem positive_rates_spec (df : List Row) (score_col label_col : String)
    (thresholds : List ℚ) :
    (positive_rates df score_col label_col thresholds = none ↔
      ∃ t ∈ thresholds,
        (confusion_matrix_counts df score_col label_col t).tp
          + (confusion_matrix_counts df score_col label_col t).fn = 0 ∨
        (confusion_matrix_counts df score_col label_col t).fp
          + (confusion_matrix_counts df score_col label_col t).tn = 0) ∧
    (∀ fpr tpr, positive_rates df score_col label_col thresholds = some (fpr, tpr) →
      fpr.length = thresholds.length ∧ tpr.length = thresholds.length) := by
  induction thresholds with
  | nil =>
    refine ⟨by simp [positive_rates], ?_⟩
    intro fpr tpr h
    simp only [positive_rates, Option.some.injEq] at h
    obtain ⟨h1, h2⟩ := Prod.mk.injEq .. ▸ h
    simp [← h1, ← h2]
  | cons t ts ih =>
    by_cases hz : (confusion_matrix_counts df score_col label_col t).tp
        + (confusion_matrix_counts df score_col label_col t).fn = 0 ∨
        (confusion_matrix_counts df score_col label_col t).fp
        + (confusion_matrix_counts df score_col label_col t).tn = 0
    · refine ⟨?_, ?_⟩
      · simp only [positive_rates, hz, if_pos]
        simp only [true_iff]
        exact ⟨t, List.mem_cons_self t ts, hz⟩
      · intro fpr tpr h
        have hnone : positive_rates df score_col label_col (t :: ts) = none := by
          simp only [positive_rates]
          rw [if_pos hz]
        rw [hnone] at h
        exact Option.noConfusion h
    · rcases hrec : positive_rates df score_col label_col ts with _ | ⟨fpr0, tpr0⟩
      · refine ⟨?_, ?_⟩
        · simp only [positive_rates, hz, if_neg, not_false_iff, hrec]
          simp only [true_iff]
          obtain ⟨u, hu, hu2⟩ := (ih.1).mp hrec
          exact ⟨u, List.mem_cons_of_mem t hu, hu2⟩
        · intro fpr tpr h
          simp [positive_rates, hz, hrec] at h
      · refine ⟨?_, ?_⟩
        · simp only [positive_rates, hz, if_neg, not_false_iff, hrec]
          constructor
          · intro h; simp at h
          · rintro ⟨u, hu, hu2⟩
            rcases List.mem_cons.mp hu with rfl | hu'
            · exact absurd hu2 hz
            · exact absurd ((ih.1).mpr ⟨u, hu', hu2⟩) (by simp [hrec])
        · intro fpr tpr h
          simp only [positive_rates, hz, if_neg, not_false_iff, hrec,
            Option.some.injEq] at h
          obtain ⟨h1, h2⟩ := Prod.mk.injEq .. ▸ h
          obtain ⟨l1, l2⟩ := ih.2 fpr0 tpr0 hrec
          simp [← h1, ← h2, l1, l2]

/-- Witness for C5: a two-row dataset (one positive scored 3/5, one
negative scored 2/5) at the single threshold 1/2 yields one fpr and one
tpr entry. -/
theorem positive_rates_spec_witness :
    ([(0 : ℚ)].length = [(1 : ℚ)/2].length ∧ ([(1 : ℚ)].length = [(1 : ℚ)/2].length)) :=
  (positive_rates_spec
      [⟨fun _ => 3/5, fun _ => true⟩, ⟨fun _ => 2/5, fun _ => false⟩]
      "m" "label" [1/2]).2 [0] [1]
    (by norm_num [positive_rates, confusion_matrix_counts, List.countP_cons])

/-- Modelled from the spec: `np.linspace(0, 1, n)` (NumPy, not part of
this repository): `n` evenly spaced points from 0 to 1 inclusive, `[0.0]`
for `n = 1`, `[]` for `n = 0`.  For `n = 1` the formula below produces
`0 / 0`, which is `0` in ℚ, matching NumPy's `[0.0]`. -/
def linspace01 (n : ℕ) : List ℚ :=
  if n = 0 then [] else (List.range n).map fun i : ℕ => (i : ℚ) / ((n : ℚ) - 1)

/-- The quantity the equal-error-rate scan minimizes:
`abs(confusion_matrix['fn'] - confusion_matrix['fp'])` at threshold `t`. -/
def eer_difference (df : List Row) (score_col label_col : String) (t : ℚ) : ℤ :=
  |((confusion_matrix_counts df score_col label_col t).fn : ℤ) -
    ((confusion_matrix_counts df score_col label_col t).fp : ℤ)|

/-- Loop state of `compute_equal_error_rate`; `min_diff = none` encodes
the initial `float('inf')`. -/
structure EERState where
  min_threshold : Option ℚ
  min_confusion_matrix : Option ConfusionCounts
  min_diff : Option ℤ
  deriving DecidableEq, Repr

/-- `difference <= min_diff` where `min_diff` may still be infinite. -/
def leMinDiff (d : ℤ) : Option ℤ → Bool
  | none => true
  | some m => d ≤ m

/-- The threshold scan of `compute_equal_error_rate`: while
`difference <= min_diff` keep updating the running minimum, and break at
the first strict increase. -/
def eerLoop (df : List Row) (score_col label_col : String) :
    EERState → List ℚ → EERState
  | st, [] => st
  | st, t :: ts =>
    let cm := confusion_matrix_counts df score_col label_col t
    let difference := |(cm.fn : ℤ) - (cm.fp : ℤ)|
    if leMinDiff difference st.min_diff then
      eerLoop df score_col label_col ⟨some t, some cm, some difference⟩ ts
    else st

/-- Return value of `compute_equal_error_rate`: the dict with keys
`'threshold'` and `'confusion_matrix'`. -/
structure EERResult where
  threshold : Option ℚ
  confusion_matrix : Option ConfusionCounts
  deriving DecidableEq, Repr

/-- Embeds `compute_equal_error_rate(df, score_col, label_col,
num_thresholds)` (the source defaults `num_thresholds` to 101). -/
def compute_equal_error_rate (df : List Row) (score_col label_col : String)
    (num_thresholds : ℕ) : EERResult :=
  let st := eerLoop df score_col label_col ⟨none, none, none⟩
    (linspace01 num_thresholds)
  ⟨st.min_threshold, st.min_confusion_matrix⟩

/-- Number of scan steps `eerLoop` still accepts when the running minimum
is `m` and the upcoming difference values are the list argument. -/
def stopAux (m : ℤ) : List ℤ → ℕ
  | [] => 0
  | d :: rest => if d ≤ m then stopAux d rest + 1 else 0

theorem stopAux_le_length (m : ℤ) (ds : List ℤ) : stopAux m ds ≤ ds.length := by
  induction ds generalizing m with
  | nil => simp [stopAux]
  | cons d rest ih =>
    by_cases h : d ≤ m
    · simpa [stopAux, h] using ih d
    · simp [stopAux, h]

theorem stopAux_nonincreasing (m : ℤ) (ds : List ℤ) :
    ∀ i, i < stopAux m ds →
      (m :: ds).getD (i + 1) 0 ≤ (m :: ds).getD i 0 := by
  induction ds generalizing m with
  | nil => simp [stopAux]
  | cons d rest ih =>
    by_cases h : d ≤ m
    · intro i hi
      cases i with
      | zero => simpa using h
      | succ j =>
        have hj : j < stopAux d rest := by
          have := hi
          simp only [stopAux, h, if_pos] at this
          omega
        simpa using ih d j hj
    · simp [stopAux, h]

theorem stopAux_strict_increase (m : ℤ) (ds : List ℤ)
    (h : stopAux m ds < ds.length) :
    (m :: ds).getD (stopAux m ds) 0 < (m :: ds).getD (stopAux m ds + 1) 0 := by
  induction ds generalizing m with
  | nil => simp [stopAux] at h
  | cons d rest ih =>
    by_cases hd : d ≤ m
    · have h' : stopAux d rest < rest.length := by
        simp only [stopAux, hd, if_pos, List.length_cons] at h
        omega
      simpa [stopAux, hd] using ih d h'
    · simpa [stopAux, hd] using not_le.mp hd

theorem antitone_chain (f : ℕ → ℤ) :
    ∀ k, (∀ i, i < k → f (i + 1) ≤ f i) → ∀ i, i ≤ k → f k ≤ f i := by
  intro k
  induction k with
  | zero =>
    intro _ i hi
    have : i = 0 := Nat.le_zero.mp hi
    simp [this]
  | succ k ih =>
    intro hstep i hi
    have hk : f (k + 1) ≤ f k := hstep k (Nat.lt_succ_self k)
    rcases Nat.eq_or_lt_of_le hi with h | h
    · simp [h]
    · exact hk.trans
        (ih (fun j hj => hstep j (Nat.lt_succ_of_lt hj)) i (Nat.lt_succ_iff.mp h))

theorem map_getD_eq (f : ℚ → ℤ) (l : List ℚ) (i : ℕ) (h : i < l.length) :
    (l.map f).getD i 0 = f (l.getD i 0) := by
  rw [List.getD_eq_getElem?_getD, List.getD_eq_getElem?_getD,
    List.getElem?_map, List.getElem?_eq_getElem h]
  simp

theorem eer_difference_fold (df : List Row) (score_col label_col : String)
    (t : ℚ) :
    |((confusion_matrix_counts df score_col label_col t).fn : ℤ) -
      ((confusion_matrix_counts df score_col label_col t).fp : ℤ)| =
      eer_difference df score_col label_col t := rfl

theorem eerLoop_run (df : List Row) (score_col label_col : String) :
    ∀ (ts : List ℚ) (t0 : ℚ) (c0 : ConfusionCounts) (m0 : ℤ),
      eerLoop df score_col label_col ⟨some t0, some c0, some m0⟩ ts =
        (if stopAux m0 (ts.map (eer_difference df score_col label_col)) = 0 then
          (⟨some t0, some c0, some m0⟩ : EERState)
        else
          let u := ts.getD
            (stopAux m0 (ts.map (eer_difference df score_col label_col)) - 1) 0
          ⟨some u, some (confusion_matrix_counts df score_col label_col u),
            some (eer_difference df score_col label_col u)⟩) := by
  intro ts
  induction ts with
  | nil => intro t0 c0 m0; simp [eerLoop, stopAux]
  | cons t ts ih =>
    intro t0 c0 m0
    by_cases h : eer_difference df score_col label_col t ≤ m0
    · have hb : leMinDiff (eer_difference df score_col label_col t) (some m0)
          = true := by simpa [leMinDiff] using h
      have hstep : eerLoop df score_col label_col
          ⟨some t0, some c0, some m0⟩ (t :: ts) =
          eerLoop df score_col label_col
            ⟨some t, some (confusion_matrix_counts df score_col label_col t),
              some (eer_difference df score_col label_col t)⟩ ts := by
        simp only [eerLoop, eer_difference_fold]
        rw [if_pos hb]
      have hs : stopAux m0
          (eer_difference df score_col label_col t ::
            ts.map (eer_difference df score_col label_col))
          = stopAux (eer_difference df score_col label_col t)
              (ts.map (eer_difference df score_col label_col)) + 1 := by
        simp [stopAux, h]
      rw [hstep, ih, List.map_cons, hs]
      by_cases hz : stopAux (eer_difference df score_col label_col t)
          (ts.map (eer_difference df score_col label_col)) = 0
      · rw [if_pos hz, hz]
        simp
      · rw [if_neg hz, if_neg (by omega)]
        obtain ⟨j, hj⟩ := Nat.exists_eq_succ_of_ne_zero hz
        rw [hj]
        simp
    · have hb : leMinDiff (eer_difference df score_col label_col t) (some m0)
          = false := by simpa [leMinDiff] using h
      have hstep : eerLoop df score_col label_col
          ⟨some t0, some c0, some m0⟩ (t :: ts) =
          ⟨some t0, some c0, some m0⟩ := by
        simp only [eerLoop, eer_difference_fold]
        rw [if_neg (by simp [hb])]
      rw [hstep]
      have hs : stopAux m0 ((t :: ts).map (eer_difference df score_col label_col))
          = 0 := by simp [stopAux, h]
      rw [hs]
      simp

theorem linspace01_length (n : ℕ) : (linspace01 n).length = n := by
  by_cases h : n = 0 <;> simp [linspace01, h]

theorem linspace01_getD (n i : ℕ) (h : i < n) :
    (linspace01 n).getD i 0 = (i : ℚ) / ((n : ℚ) - 1) := by
  have hn : ¬ n = 0 := by omega
  rw [linspace01, if_neg hn, List.getD_eq_getElem?_getD, List.getElem?_map,
    List.getElem?_range h]
  rfl

theorem linspace01_mono (n : ℕ) {i j : ℕ} (hij : i ≤ j) (hj : j < n) :
    (linspace01 n).getD i 0 ≤ (linspace01 n).getD j 0 := by
  rw [linspace01_getD n i (lt_of_le_of_lt hij hj), linspace01_getD n j hj]
  rcases Nat.lt_or_ge n 2 with h2 | h2
  · have hi0 : i = 0 := by omega
    have hj0 : j = 0 := by omega
    rw [hi0, hj0]
  · have hc : (0 : ℚ) < (n : ℚ) - 1 := by
      have : (2 : ℚ) ≤ (n : ℚ) := by exact_mod_cast h2
      linarith
    have hij' : (i : ℚ) ≤ (j : ℚ) := by exact_mod_cast hij
    exact (div_le_div_iff_of_pos_right hc).mpr hij'

/-- C1 (amended): `compute_equal_error_rate` scans the evenly spaced
ascending thresholds `i/(n-1)` of `[0,1]`, tracks the minimum of
`|fn - fp|`, stops at the first strict increase over the running minimum,
and returns a threshold attaining the minimum over the scanned prefix;
when several scanned thresholds tie for that minimum it returns the
latest/highest of them (every scanned threshold attaining the minimum is
`≤` the returned one), because the `<=` comparison keeps overwriting the
running minimum on ties. -/
theorem compute_equal_error_rate_spec (df : List Row)
    (score_col label_col : String) (n : ℕ) (hn : 1 ≤ n) :
    ∃ k, k < n ∧
      compute_equal_error_rate df score_col label_col n =
        ⟨some ((linspace01 n).getD k 0),
         some (confusion_matrix_counts df score_col label_col
           ((linspace01 n).getD k 0))⟩ ∧
      (∀ i, i < n → (linspace01 n).getD i 0 = (i : ℚ) / ((n : ℚ) - 1)) ∧
      (∀ i j, i ≤ j → j < n →
        (linspace01 n).getD i 0 ≤ (linspace01 n).getD j 0) ∧
      (∀ i, i < k →
        eer_difference df score_col label_col ((linspace01 n).getD (i + 1) 0) ≤
          eer_difference df score_col label_col ((linspace01 n).getD i 0)) ∧
      (k + 1 < n →
        eer_difference df score_col label_col ((linspace01 n).getD k 0) <
          eer_difference df score_col label_col ((linspace01 n).getD (k + 1) 0)) ∧
      (∀ i, i ≤ k →
        eer_difference df score_col label_col ((linspace01 n).getD k 0) ≤
          eer_difference df score_col label_col ((linspace01 n).getD i 0)) ∧
      (∀ i, i ≤ k → (linspace01 n).getD i 0 ≤ (linspace01 n).getD k 0) := by
  obtain ⟨t0, rest, hts⟩ := List.exists_cons_of_ne_nil
    (show linspace01 n ≠ [] by
      intro hcon
      have := linspace01_length n
      rw [hcon] at this
      simp at this
      omega)
  have hlen : rest.length + 1 = n := by
    have := linspace01_length n
    rw [hts] at this
    simpa using this
  set K := stopAux (eer_difference df score_col label_col t0)
    (rest.map (eer_difference df score_col label_col)) with hKdef
  have hK : K ≤ rest.length := by
    have := stopAux_le_length (eer_difference df score_col label_col t0)
      (rest.map (eer_difference df score_col label_col))
    rwa [List.length_map, ← hKdef] at this
  have hfirst : eerLoop df score_col label_col ⟨none, none, none⟩ (t0 :: rest)
      = eerLoop df score_col label_col
          ⟨some t0, some (confusion_matrix_counts df score_col label_col t0),
            some (eer_difference df score_col label_col t0)⟩ rest := by
    simp [eerLoop, eer_difference_fold, leMinDiff]
  have hgetK : (t0 :: rest).getD K 0
      = if K = 0 then t0 else rest.getD (K - 1) 0 := by
    cases hc : K with
    | zero => simp
    | succ j => simp
  have heq : compute_equal_error_rate df score_col label_col n =
      ⟨some ((linspace01 n).getD K 0),
       some (confusion_matrix_counts df score_col label_col
         ((linspace01 n).getD K 0))⟩ := by
    simp only [compute_equal_error_rate]
    rw [hts, hfirst, eerLoop_run df score_col label_col rest t0
      (confusion_matrix_counts df score_col label_col t0)
      (eer_difference df score_col label_col t0), hgetK, ← hKdef]
    by_cases hz : K = 0
    · simp [hz]
    · simp [hz]
  have hfull : ∀ i, i < n →
      ((eer_difference df score_col label_col t0) ::
        rest.map (eer_difference df score_col label_col)).getD i 0
      = eer_difference df score_col label_col ((linspace01 n).getD i 0) := by
    intro i hi
    have h1 : (eer_difference df score_col label_col t0) ::
        rest.map (eer_difference df score_col label_col)
        = (linspace01 n).map (eer_difference df score_col label_col) := by
      rw [hts, List.map_cons]
    rw [h1, map_getD_eq _ _ i (by rw [linspace01_length]; exact hi)]
  have hnonincr : ∀ i, i < K →
      eer_difference df score_col label_col ((linspace01 n).getD (i + 1) 0) ≤
        eer_difference df score_col label_col ((linspace01 n).getD i 0) := by
    intro i hi
    have h2 := stopAux_nonincreasing (eer_difference df score_col label_col t0)
      (rest.map (eer_difference df score_col label_col)) i (hKdef ▸ hi)
    rwa [hfull (i + 1) (by omega), hfull i (by omega)] at h2
  have hstrict : K + 1 < n →
      eer_difference df score_col label_col ((linspace01 n).getD K 0) <
        eer_difference df score_col label_col ((linspace01 n).getD (K + 1) 0) := by
    intro hk1
    have hlt : K < (rest.map (eer_difference df score_col label_col)).length := by
      rw [List.length_map]; omega
    have h2 := stopAux_strict_increase (eer_difference df score_col label_col t0)
      (rest.map (eer_difference df score_col label_col)) (hKdef ▸ hlt)
    rw [← hKdef] at h2
    rwa [hfull K (by omega), hfull (K + 1) (by omega)] at h2
  have hmin := antitone_chain
    (fun i => eer_difference df score_col label_col ((linspace01 n).getD i 0))
    K hnonincr
  exact ⟨K, by omega, heq, fun i hi => linspace01_getD n i hi,
    fun i j hij hj => linspace01_mono n hij hj, hnonincr, hstrict, hmin,
    fun i hi => linspace01_mono n hi (by omega)⟩

/-- C1 counterexample: on a one-row dataset (score 1, label true) every
threshold of the 3-point sweep is scanned and ties at the minimum
difference 0, yet `compute_equal_error_rate` returns the latest tied
threshold 1, not the earlier/lower tied threshold 0: the `<=` update
keeps overwriting the running minimum on ties. -/
theorem compute_equal_error_rate_tie_counterexample :
    compute_equal_error_rate [⟨fun _ => 1, fun _ => true⟩] "m" "label" 3 =
      ⟨some 1, some ⟨1, 0, 0, 0⟩⟩ ∧
    (∀ t ∈ linspace01 3,
      eer_difference [⟨fun _ => 1, fun _ => true⟩] "m" "label" t = 0) ∧
    (0 : ℚ) ∈ linspace01 3 ∧ (0 : ℚ) < 1 := by
  have hls : linspace01 3 = [0, 1/2, 1] := by
    norm_num [linspace01, List.range_succ]
  refine ⟨?_, ?_, ?_, by norm_num⟩
  · norm_num [compute_equal_error_rate, hls, eerLoop, leMinDiff,
      confusion_matrix_counts, List.countP_cons]
  · intro t ht
    rw [hls] at ht
    rcases List.mem_cons.mp ht with rfl | ht
    · norm_num [eer_difference, confusion_matrix_counts, List.countP_cons]
    rcases List.mem_cons.mp ht with rfl | ht
    · norm_num [eer_difference, confusion_matrix_counts, List.countP_cons]
    rcases List.mem_cons.mp ht with rfl | ht
    · norm_num [eer_difference, confusion_matrix_counts, List.countP_cons]
    · simp at ht
  · rw [hls]
    simp

/-- Witness for C1 (amended) at a concrete one-row dataset and a 3-point
sweep. -/
theorem compute_equal_error_rate_spec_witness :
    ∃ k, k < 3 ∧
      compute_equal_error_rate [⟨fun _ => 1, fun _ => true⟩] "m" "label" 3 =
        ⟨some ((linspace01 3).getD k 0),
         some (confusion_matrix_counts [⟨fun _ => 1, fun _ => true⟩] "m" "label"
           ((linspace01 3).getD k 0))⟩ ∧
      (∀ i, i < 3 → (linspace01 3).getD i 0 = (i : ℚ) / ((3 : ℚ) - 1)) ∧
      (∀ i j, i ≤ j → j < 3 →
        (linspace01 3).getD i 0 ≤ (linspace01 3).getD j 0) ∧
      (∀ i, i < k →
        eer_difference [⟨fun _ => 1, fun _ => true⟩] "m" "label"
            ((linspace01 3).getD (i + 1) 0) ≤
          eer_difference [⟨fun _ => 1, fun _ => true⟩] "m" "label"
            ((linspace01 3).getD i 0)) ∧
      (k + 1 < 3 →
        eer_difference [⟨fun _ => 1, fun _ => true⟩] "m" "label"
            ((linspace01 3).getD k 0) <
          eer_difference [⟨fun _ => 1, fun _ => true⟩] "m" "label"
            ((linspace01 3).getD (k + 1) 0)) ∧
      (∀ i, i ≤ k →
        eer_difference [⟨fun _ => 1, fun _ => true⟩] "m" "label"
            ((linspace01 3).getD k 0) ≤
          eer_difference [⟨fun _ => 1, fun _ => true⟩] "m" "label"
            ((linspace01 3).getD i 0)) ∧
      (∀ i, i ≤ k → (linspace01 3).getD i 0 ≤ (linspace01 3).getD k 0) :=
  compute_equal_error_rate_spec [⟨fun _ => 1, fun _ => true⟩] "m" "label" 3
    (by decide)

/-- Mann-Whitney pair weight: 1 when the first score is strictly higher,
1/2 on a tie, 0 otherwise. -/
def gtWeight (x y : ℚ) : ℚ := if y < x then 1 else if x = y then 1/2 else 0

/-- Sum of `f x y` over all pairs of the two lists. -/
def pairSum (f : ℚ → ℚ → ℚ) (xs ys : List ℚ) : ℚ :=
  (xs.map fun x => (ys.map fun y => f x y).sum).sum

/-- Modelled from the spec: the statistic returned by
`scipy.stats.mannwhitneyu(x, y, alternative='less')` (SciPy, not part of
this repository) is the Mann-Whitney U of the first sample — the number
of pairs where the first sample's score exceeds the second's, ties
counted 1/2; the `alternative` parameter affects only the p-value, which
the caller discards. -/
def mannwhitneyu_statistic (xs ys : List ℚ) : ℚ := pairSum gtWeight xs ys

/-- Embeds `normalized_mwu(data1, data2, model_name)`: `None` when either
subset is empty, otherwise `u / (n1 * n2)`. -/
def normalized_mwu (data1 data2 : List Row) (model_name : String) : Option ℚ :=
  let scores_1 := data1.map fun r => r.numCol model_name
  let scores_2 := data2.map fun r => r.numCol model_name
  if scores_1.length = 0 ∨ scores_2.length = 0 then none
  else some (mannwhitneyu_statistic scores_1 scores_2 /
    ((scores_1.length : ℚ) * (scores_2.length : ℚ)))

theorem gtWeight_nonneg (x y : ℚ) : 0 ≤ gtWeight x y := by
  unfold gtWeight
  split <;> norm_num
  split <;> norm_num

theorem gtWeight_le_one (x y : ℚ) : gtWeight x y ≤ 1 := by
  unfold gtWeight
  split <;> norm_num
  split <;> norm_num

theorem gtWeight_add_flip (x y : ℚ) : gtWeight x y + gtWeight y x = 1 := by
  unfold gtWeight
  rcases lt_trichotomy x y with h | h | h
  · rw [if_neg (by linarith), if_neg (by exact ne_of_lt h), if_pos h]
    norm_num
  · rw [if_neg (by simp [h]), if_pos h, if_neg (by simp [h])]
    rw [if_pos h.symm]
    norm_num
  · rw [if_pos h, if_neg (by linarith)]
    rw [if_neg h.ne]
    norm_num

theorem list_sum_map_add {α : Type} (l : List α) (a b : α → ℚ) :
    (l.map fun y => a y + b y).sum = (l.map a).sum + (l.map b).sum := by
  induction l with
  | nil => simp
  | cons x xs ih => simp [ih]; ring

theorem pairSum_nonneg (f : ℚ → ℚ → ℚ) (hf : ∀ x y, 0 ≤ f x y)
    (xs ys : List ℚ) : 0 ≤ pairSum f xs ys := by
  apply List.sum_nonneg
  intro a ha
  obtain ⟨x, _, rfl⟩ := List.mem_map.mp ha
  apply List.sum_nonneg
  intro b hb
  obtain ⟨y, _, rfl⟩ := List.mem_map.mp hb
  exact hf x y

theorem pairSum_le (f : ℚ → ℚ → ℚ) (hf : ∀ x y, f x y ≤ 1)
    (xs ys : List ℚ) :
    pairSum f xs ys ≤ (xs.length : ℚ) * (ys.length : ℚ) := by
  induction xs with
  | nil => simp [pairSum]
  | cons x xs ih =>
    have hx : ((ys.map fun y => f x y).sum) ≤ (ys.length : ℚ) := by
      have := List.sum_le_card_nsmul (ys.map fun y => f x y) 1 (by
        intro a ha
        obtain ⟨y, _, rfl⟩ := List.mem_map.mp ha
        exact hf x y)
      simpa using this
    have : pairSum f (x :: xs) ys
        = (ys.map fun y => f x y).sum + pairSum f xs ys := by
      simp [pairSum]
    rw [this, List.length_cons]
    push_cast
    calc (ys.map fun y => f x y).sum + pairSum f xs ys
        ≤ (ys.length : ℚ) + (xs.length : ℚ) * (ys.length : ℚ) := by
          exact add_le_add hx ih
      _ = ((xs.length : ℚ) + 1) * (ys.length : ℚ) := by ring

theorem pairSum_swap_add (f g : ℚ → ℚ → ℚ)
    (hfg : ∀ x y, f x y + g y x = 1) (xs ys : List ℚ) :
    pairSum f xs ys + pairSum g ys xs
      = (xs.length : ℚ) * (ys.length : ℚ) := by
  induction xs with
  | nil => simp [pairSum]
  | cons x xs ih =>
    have h1 : pairSum f (x :: xs) ys
        = (ys.map fun y => f x y).sum + pairSum f xs ys := by
      simp [pairSum]
    have h2 : pairSum g ys (x :: xs)
        = (ys.map fun y => g y x).sum + pairSum g ys xs := by
      simp only [pairSum, List.map_cons, List.sum_cons]
      rw [← list_sum_map_add]
    have h3 : (ys.map fun y => f x y).sum + (ys.map fun y => g y x).sum
        = (ys.length : ℚ) := by
      rw [← list_sum_map_add]
      have : (ys.map fun y => f x y + g y x) = ys.map fun _ => (1 : ℚ) := by
        apply List.map_congr_left
        intro y _
        exact hfg x y
      rw [this]
      simp [mul_comm]
    rw [h1, h2, List.length_cons]
    push_cast
    calc (ys.map fun y => f x y).sum + pairSum f xs ys
          + ((ys.map fun y => g y x).sum + pairSum g ys xs)
        = ((ys.map fun y => f x y).sum + (ys.map fun y => g y x).sum)
          + (pairSum f xs ys + pairSum g ys xs) := by ring
      _ = (ys.length : ℚ) + (xs.length : ℚ) * (ys.length : ℚ) := by
          rw [h3, ih]
      _ = ((xs.length : ℚ) + 1) * (ys.length : ℚ) := by ring

/-- C4: `normalized_mwu` returns `None` when either subset is empty; for
non-empty subsets the value lies in [0,1], and when no ties exist between
the two score collections the results for (A,B) and (B,A) sum exactly to
1. -/
theorem normalized_mwu_spec (data1 data2 : List Row) (model_name : String) :
    ((data1 = [] ∨ data2 = []) → normalized_mwu data1 data2 model_name = none) ∧
    (data1 ≠ [] → data2 ≠ [] →
      ∃ v, normalized_mwu data1 data2 model_name = some v ∧
        0 ≤ v ∧ v ≤ 1 ∧
        ((∀ x ∈ data1.map fun r => r.numCol model_name,
            ∀ y ∈ data2.map fun r => r.numCol model_name, x ≠ y) →
          normalized_mwu data2 data1 model_name = some (1 - v))) := by
  constructor
  · rintro (rfl | rfl) <;> simp [normalized_mwu]
  · intro h1 h2
    have hn1 : data1.length ≠ 0 := fun h => h1 (List.length_eq_zero.mp h)
    have hn2 : data2.length ≠ 0 := fun h => h2 (List.length_eq_zero.mp h)
    have hc : ¬((data1.map fun r => r.numCol model_name).length = 0 ∨
        (data2.map fun r => r.numCol model_name).length = 0) := by
      rw [List.length_map, List.length_map]
      tauto
    have hc' : ¬((data2.map fun r => r.numCol model_name).length = 0 ∨
        (data1.map fun r => r.numCol model_name).length = 0) := by
      rw [List.length_map, List.length_map]
      tauto
    have hpos : (0 : ℚ) <
        ((data1.map fun r => r.numCol model_name).length : ℚ) *
        ((data2.map fun r => r.numCol model_name).length : ℚ) := by
      rw [List.length_map, List.length_map]
      have p1 : 0 < data1.length := Nat.pos_of_ne_zero hn1
      have p2 : 0 < data2.length := Nat.pos_of_ne_zero hn2
      have q1 : (0 : ℚ) < (data1.length : ℚ) := by exact_mod_cast p1
      have q2 : (0 : ℚ) < (data2.length : ℚ) := by exact_mod_cast p2
      positivity
    have hrw : normalized_mwu data1 data2 model_name =
        some (mannwhitneyu_statistic (data1.map fun r => r.numCol model_name)
            (data2.map fun r => r.numCol model_name) /
          (((data1.map fun r => r.numCol model_name).length : ℚ) *
            ((data2.map fun r => r.numCol model_name).length : ℚ))) := by
      simp only [normalized_mwu]
      rw [if_neg hc]
    refine ⟨_, hrw, ?_, ?_, ?_⟩
    · exact div_nonneg
        (pairSum_nonneg gtWeight gtWeight_nonneg _ _) hpos.le
    · exact (div_le_one hpos).mpr (pairSum_le gtWeight gtWeight_le_one _ _)
    · intro _hties
      have hrw2 : normalized_mwu data2 data1 model_name =
          some (mannwhitneyu_statistic (data2.map fun r => r.numCol model_name)
              (data1.map fun r => r.numCol model_name) /
            (((data2.map fun r => r.numCol model_name).length : ℚ) *
              ((data1.map fun r => r.numCol model_name).length : ℚ))) := by
        simp only [normalized_mwu]
        rw [if_neg hc']
      rw [hrw2]
      congr 1
      rw [eq_sub_iff_add_eq, mul_comm
        ((data2.map fun r => r.numCol model_name).length : ℚ), div_add_div_same]
      have hswp := pairSum_swap_add gtWeight gtWeight gtWeight_add_flip
        (data1.map fun r => r.numCol model_name)
        (data2.map fun r => r.numCol model_name)
      unfold mannwhitneyu_statistic
      rw [add_comm (pairSum gtWeight (data2.map fun r => r.numCol model_name)
        (data1.map fun r => r.numCol model_name)), hswp]
      exact div_self (ne_of_gt hpos)

/-- Witness for C4 on one-row subsets with scores 3/10 and 7/10. -/
theorem normalized_mwu_spec_witness :
    ∃ v, normalized_mwu [⟨fun _ => 3/10, fun _ => true⟩]
        [⟨fun _ => 7/10, fun _ => true⟩] "m" = some v ∧
      0 ≤ v ∧ v ≤ 1 ∧
      ((∀ x ∈ [⟨fun _ => 3/10, fun _ => true⟩].map
          (fun r : Row => r.numCol "m"),
          ∀ y ∈ [⟨fun _ => 7/10, fun _ => true⟩].map
            (fun r : Row => r.numCol "m"), x ≠ y) →
        normalized_mwu [⟨fun _ => 7/10, fun _ => true⟩]
          [⟨fun _ => 3/10, fun _ => true⟩] "m" = some (1 - v)) :=
  (normalized_mwu_spec [⟨fun _ => 3/10, fun _ => true⟩]
      [⟨fun _ => 7/10, fun _ => true⟩] "m").2
    (List.cons_ne_nil _ _) (List.cons_ne_nil _ _)

/-- Modelled from the spec: `sklearn.metrics.roc_auc_score` (scikit-learn,
not part of this repository) computes the standard area under the ROC
curve — the probability that a positive example outranks a negative one,
ties counted 1/2 — and raises `ValueError` on mismatched input lengths or
on a degenerate label sequence (only one class present). -/
def roc_auc_score (y_true : List Bool) (y_pred : List ℚ) : Except PyErr ℚ :=
  let pos := ((y_true.zip y_pred).filter fun p => p.1).map fun p => p.2
  let neg := ((y_true.zip y_pred).filter fun p => !p.1).map fun p => p.2
  if y_true.length ≠ y_pred.length then .error .valueError
  else if pos.length = 0 ∨ neg.length = 0 then .error .valueError
  else .ok (pairSum gtWeight pos neg / ((pos.length : ℚ) * (neg.length : ℚ)))

/-- Embeds `compute_auc(y_true, y_pred)`: `roc_auc_score` with
`ValueError` caught and mapped to the NaN sentinel (`none`). -/
def compute_auc (y_true : List Bool) (y_pred : List ℚ) : Option ℚ :=
  match roc_auc_score y_true y_pred with
  | .ok v => some v
  | .error _ => none

theorem zip_fst_all (y_true : List Bool) (y_pred : List ℚ)
    (hlen : y_true.length = y_pred.length) (q : Bool → Prop) :
    (∀ p ∈ y_true.zip y_pred, q p.1) ↔ (∀ b ∈ y_true, q b) := by
  have hfst : (y_true.zip y_pred).map Prod.fst = y_true :=
    List.map_fst_zip _ _ (le_of_eq hlen)
  constructor
  · intro h b hb
    rw [← hfst] at hb
    obtain ⟨p, hp, rfl⟩ := List.mem_map.mp hb
    exact h p hp
  · intro h p hp
    exact h p.1 (by rw [← hfst]; exact List.mem_map_of_mem Prod.fst hp)

theorem auc_pos_empty_iff (y_true : List Bool) (y_pred : List ℚ)
    (hlen : y_true.length = y_pred.length) :
    (((y_true.zip y_pred).filter fun p => p.1).map fun p => p.2).length = 0 ↔
      ∀ b ∈ y_true, b = false := by
  rw [List.length_map, List.length_eq_zero, List.filter_eq_nil_iff]
  rw [show (∀ p ∈ y_true.zip y_pred, ¬p.1 = true) ↔
      (∀ b ∈ y_true, ¬b = true) from
    zip_fst_all y_true y_pred hlen fun b => ¬b = true]
  simp

theorem auc_neg_empty_iff (y_true : List Bool) (y_pred : List ℚ)
    (hlen : y_true.length = y_pred.length) :
    (((y_true.zip y_pred).filter fun p => !p.1).map fun p => p.2).length = 0 ↔
      ∀ b ∈ y_true, b = true := by
  rw [List.length_map, List.length_eq_zero, List.filter_eq_nil_iff]
  rw [show (∀ p ∈ y_true.zip y_pred, ¬(!p.1) = true) ↔
      (∀ b ∈ y_true, ¬(!b) = true) from
    zip_fst_all y_true y_pred hlen fun b => ¬(!b) = true]
  simp

/-- C3: for equally long label and score sequences, `compute_auc` returns
the NaN sentinel exactly when the label sequence is degenerate (all one
class) — never a fatal error — and any value it returns is the standard
pairwise AUC and lies in [0,1]. -/
theorem compute_auc_spec (y_true : List Bool) (y_pred : List ℚ)
    (hlen : y_true.length = y_pred.length) :
    (compute_auc y_true y_pred = none ↔
      ((∀ b ∈ y_true, b = true) ∨ (∀ b ∈ y_true, b = false))) ∧
    (∀ v, compute_auc y_true y_pred = some v → 0 ≤ v ∧ v ≤ 1) := by
  have hfalse : ¬(y_true.length ≠ y_pred.length) := by simp [hlen]
  by_cases hP :
      ((((y_true.zip y_pred).filter fun p => p.1).map fun p => p.2).length = 0 ∨
       (((y_true.zip y_pred).filter fun p => !p.1).map fun p => p.2).length = 0)
  · have hra : roc_auc_score y_true y_pred = .error .valueError := by
      simp only [roc_auc_score]
      rw [if_neg hfalse, if_pos hP]
    have hca : compute_auc y_true y_pred = none := by
      simp [compute_auc, hra]
    refine ⟨?_, ?_⟩
    · rw [hca]
      simp only [true_iff]
      rcases hP with h | h
      · exact Or.inr ((auc_pos_empty_iff y_true y_pred hlen).mp h)
      · exact Or.inl ((auc_neg_empty_iff y_true y_pred hlen).mp h)
    · intro v hv
      rw [hca] at hv
      exact Option.noConfusion hv
  · have hra : roc_auc_score y_true y_pred =
        .ok (pairSum gtWeight
            (((y_true.zip y_pred).filter fun p => p.1).map fun p => p.2)
            (((y_true.zip y_pred).filter fun p => !p.1).map fun p => p.2) /
          (((((y_true.zip y_pred).filter fun p => p.1).map fun p => p.2).length : ℚ) *
           ((((y_true.zip y_pred).filter fun p => !p.1).map fun p => p.2).length : ℚ))) := by
      simp only [roc_auc_score]
      rw [if_neg hfalse, if_neg hP]
    have hca : compute_auc y_true y_pred =
        some (pairSum gtWeight
            (((y_true.zip y_pred).filter fun p => p.1).map fun p => p.2)
            (((y_true.zip y_pred).filter fun p => !p.1).map fun p => p.2) /
          (((((y_true.zip y_pred).filter fun p => p.1).map fun p => p.2).length : ℚ) *
           ((((y_true.zip y_pred).filter fun p => !p.1).map fun p => p.2).length : ℚ))) := by
      simp [compute_auc, hra]
    push_neg at hP
    have hpos : (0 : ℚ) <
        (((((y_true.zip y_pred).filter fun p => p.1).map fun p => p.2).length : ℚ) *
         ((((y_true.zip y_pred).filter fun p => !p.1).map fun p => p.2).length : ℚ)) := by
      have q1 : (0 : ℚ) <
          ((((y_true.zip y_pred).filter fun p => p.1).map fun p => p.2).length : ℚ) := by
        exact_mod_cast Nat.pos_of_ne_zero hP.1
      have q2 : (0 : ℚ) <
          ((((y_true.zip y_pred).filter fun p => !p.1).map fun p => p.2).length : ℚ) := by
        exact_mod_cast Nat.pos_of_ne_zero hP.2
      positivity
    refine ⟨?_, ?_⟩
    · rw [hca]
      constructor
      · intro h
        exact Option.noConfusion h
      · intro hdeg
        exfalso
        rcases hdeg with h | h
        · exact hP.2 ((auc_neg_empty_iff y_true y_pred hlen).mpr h)
        · exact hP.1 ((auc_pos_empty_iff y_true y_pred hlen).mpr h)
    · intro v hv
      rw [hca] at hv
      obtain rfl := (Option.some.injEq ..).mp hv
      exact ⟨div_nonneg (pairSum_nonneg gtWeight gtWeight_nonneg _ _) hpos.le,
        (div_le_one hpos).mpr (pairSum_le gtWeight gtWeight_le_one _ _)⟩

/-- Witness for C3 at the two-row input with labels `[true, false]` and
scores `[9/10, 1/10]`. -/
theorem compute_auc_spec_witness :
    (compute_auc [true, false] [9/10, 1/10] = none ↔
      ((∀ b ∈ [true, false], b = true) ∨ (∀ b ∈ [true, false], b = false))) ∧
    (∀ v, compute_auc [true, false] [9/10, 1/10] = some v → 0 ≤ v ∧ v ≤ 1) :=
  compute_auc_spec [true, false] [9/10, 1/10] (by decide)

/-- Python dict read `d[k]`: `KeyError` when the key is absent. -/
def pydictGet {α : Type} (d : List (String × α)) (k : String) :
    Except PyErr α :=
  match d.lookup k with
  | some v => .ok v
  | none => .error .keyError

/-- Python dict write `d[k] = v`: replaces an existing entry or appends. -/
def pydictSet {α : Type} (d : List (String × α)) (k : String) (v : α) :
    List (String × α) :=
  if d.any fun p => p.1 == k then
    d.map fun p => if p.1 == k then (k, v) else p
  else d ++ [(k, v)]

/-- Embeds the inner `calculate_error(overall_score, per_group_score)` of
`diff_per_subgroup_from_overall`. -/
def calculate_error (squared_error : Bool)
    (overall_score per_group_score : ℚ) : ℚ :=
  let diff := overall_score - per_group_score
  if squared_error then diff ^ 2 else |diff|

/-- Embeds `diff_per_subgroup_from_overall(overall_metrics,
per_subgroup_metrics, model_families, metric_column, squared_error)`:
per family, pairs the family's overall per-model values with each
subgroup's per-model list via `zip`, sums the per-pair errors over all
subgroups, and stores the total under the family name. -/
def diff_per_subgroup_from_overall
    (overall_metrics : List (String × List ℚ))
    (per_subgroup_metrics : List (String × List (List ℚ)))
    (model_families : List (List String))
    (metric_column : String) (squared_error : Bool) :
    Except PyErr (List (String × ℚ)) :=
  model_families.foldlM (fun diffs fams => do
    let family_name ← model_family_name fams
    let family_overall_metrics ← pydictGet overall_metrics family_name
    let col ← pydictGet per_subgroup_metrics (family_name ++ metric_column)
    let total := (col.map fun one_subgroup_metric_list =>
      ((family_overall_metrics.zip one_subgroup_metric_list).map fun p =>
        calculate_error squared_error p.1 p.2).sum).sum
    pure (pydictSet diffs family_name total)) []

theorem except_ok_bind {ε α β : Type} (a : α) (f : α → Except ε β) :
    (Except.ok a : Except ε α) >>= f = f a := rfl

theorem diff_single_family (overall : List (String × List ℚ))
    (table : List (String × List (List ℚ))) (fams : List String)
    (family_name : String) (xs : List ℚ) (rows : List (List ℚ))
    (metric_column : String) (squared_error : Bool)
    (hname : model_family_name fams = Except.ok family_name)
    (hov : overall.lookup family_name = some xs)
    (htab : table.lookup (family_name ++ metric_column) = some rows) :
    diff_per_subgroup_from_overall overall table [fams] metric_column
        squared_error =
      Except.ok [(family_name,
        (rows.map fun l => ((xs.zip l).map fun p =>
          calculate_error squared_error p.1 p.2).sum).sum)] := by
  simp [diff_per_subgroup_from_overall, List.foldlM, hname, pydictGet, hov,
    htab, pydictSet, except_ok_bind]

theorem calc_sq_le_abs (x y : ℚ) (h : |x - y| ≤ 1) :
    calculate_error true x y ≤ calculate_error false x y := by
  simp only [calculate_error]
  calc (x - y) ^ 2 = |x - y| ^ 2 := (sq_abs _).symm
    _ = |x - y| * |x - y| := sq (|x - y|)
    _ ≤ 1 * |x - y| := mul_le_mul_of_nonneg_right h (abs_nonneg _)
    _ = |x - y| := one_mul _

theorem calc_mono (sq : Bool) (x y x' y' : ℚ) (h : |x - y| ≤ |x' - y'|) :
    calculate_error sq x y ≤ calculate_error sq x' y' := by
  cases sq with
  | false => simpa [calculate_error] using h
  | true =>
    simp only [calculate_error]
    calc (x - y) ^ 2 = |x - y| ^ 2 := (sq_abs _).symm
      _ ≤ |x' - y'| ^ 2 := by
          exact pow_le_pow_left₀ (abs_nonneg _) h 2
      _ = (x' - y') ^ 2 := sq_abs _

theorem errsum_mono (sq : Bool) :
    ∀ (xs l l' : List ℚ), l.length = l'.length →
    (∀ j, |xs.getD j 0 - l.getD j 0| ≤ |xs.getD j 0 - l'.getD j 0|) →
    ((xs.zip l).map fun p => calculate_error sq p.1 p.2).sum ≤
      ((xs.zip l').map fun p => calculate_error sq p.1 p.2).sum := by
  intro xs
  induction xs with
  | nil => intro l l' _ _; simp
  | cons x xs ih =>
    intro l l' hlen hj
    cases l with
    | nil =>
      cases l' with
      | nil => simp
      | cons y' ly' => simp at hlen
    | cons y ly =>
      cases l' with
      | nil => simp at hlen
      | cons y' ly' =>
        simp only [List.zip_cons_cons, List.map_cons, List.sum_cons]
        have hhead : calculate_error sq x y ≤ calculate_error sq x y' := by
          have := hj 0
          simpa using calc_mono sq x y x y' (by simpa using this)
        have htail := ih ly ly' (by simpa using hlen)
          (fun j => by simpa using hj (j + 1))
        exact add_le_add hhead htail

theorem total_mono (sq : Bool) (xs : List ℚ) :
    ∀ (rows rows' : List (List ℚ)), rows.length = rows'.length →
    (∀ i, i < rows.length →
      (rows.getD i []).length = (rows'.getD i []).length) →
    (∀ i, i < rows.length → ∀ j,
      |xs.getD j 0 - (rows.getD i []).getD j 0| ≤
        |xs.getD j 0 - (rows'.getD i []).getD j 0|) →
    (rows.map fun l => ((xs.zip l).map fun p =>
      calculate_error sq p.1 p.2).sum).sum ≤
    (rows'.map fun l => ((xs.zip l).map fun p =>
      calculate_error sq p.1 p.2).sum).sum := by
  intro rows
  induction rows with
  | nil =>
    intro rows' hlen _ _
    cases rows' with
    | nil => simp
    | cons r rs => simp at hlen
  | cons r rs ih =>
    intro rows' hlen hlen2 hmono
    cases rows' with
    | nil => simp at hlen
    | cons r' rs' =>
      simp only [List.map_cons, List.sum_cons]
      have hhead : ((xs.zip r).map fun p =>
          calculate_error sq p.1 p.2).sum ≤
          ((xs.zip r').map fun p => calculate_error sq p.1 p.2).sum := by
        apply errsum_mono sq xs r r'
        · simpa using hlen2 0 (by simp)
        · intro j
          simpa using hmono 0 (by simp) j
      have htail := ih rs' (by simpa using hlen)
        (fun i hi => by simpa using hlen2 (i + 1) (by simpa using hi))
        (fun i hi j => by simpa using hmono (i + 1) (by simpa using hi) j)
      exact add_le_add hhead htail

/-- C2 (amended): when every paired per-model difference has magnitude at
most 1, the per-family result of `diff_per_subgroup_from_overall` with
`squared_error=True` is less than or equal to (not greater than or equal
to) the result with `squared_error=False`, since `d² ≤ |d|` for
`|d| ≤ 1`; and each result is monotonic in the magnitudes of the
individual differences. -/
theorem diff_per_subgroup_from_overall_spec
    (fams : List String) (family_name : String) (xs : List ℚ)
    (rows rows' : List (List ℚ))
    (overall : List (String × List ℚ))
    (table table' : List (String × List (List ℚ)))
    (metric_column : String)
    (hname : model_family_name fams = Except.ok family_name)
    (hov : overall.lookup family_name = some xs)
    (htab : table.lookup (family_name ++ metric_column) = some rows)
    (htab' : table'.lookup (family_name ++ metric_column) = some rows')
    (hmag : ∀ l ∈ rows, ∀ p ∈ xs.zip l, |p.1 - p.2| ≤ 1)
    (hlen : rows.length = rows'.length)
    (hlen2 : ∀ i, i < rows.length →
      (rows.getD i []).length = (rows'.getD i []).length)
    (hmono : ∀ i, i < rows.length → ∀ j,
      |xs.getD j 0 - (rows.getD i []).getD j 0| ≤
        |xs.getD j 0 - (rows'.getD i []).getD j 0|) :
    ∃ vT vF vT' vF',
      diff_per_subgroup_from_overall overall table [fams] metric_column true
        = .ok [(family_name, vT)] ∧
      diff_per_subgroup_from_overall overall table [fams] metric_column false
        = .ok [(family_name, vF)] ∧
      diff_per_subgroup_from_overall overall table' [fams] metric_column true
        = .ok [(family_name, vT')] ∧
      diff_per_subgroup_from_overall overall table' [fams] metric_column false
        = .ok [(family_name, vF')] ∧
      vT ≤ vF ∧ vT ≤ vT' ∧ vF ≤ vF' := by
  refine ⟨_, _, _, _,
    diff_single_family overall table fams family_name xs rows
      metric_column true hname hov htab,
    diff_single_family overall table fams family_name xs rows
      metric_column false hname hov htab,
    diff_single_family overall table' fams family_name xs rows'
      metric_column true hname hov htab',
    diff_single_family overall table' fams family_name xs rows'
      metric_column false hname hov htab',
    ?_, ?_, ?_⟩
  · apply List.sum_le_sum
    intro l hl
    apply List.sum_le_sum
    intro p hp
    exact calc_sq_le_abs p.1 p.2 (hmag l hl p hp)
  · exact total_mono true xs rows rows' hlen hlen2 hmono
  · exact total_mono false xs rows rows' hlen hlen2 hmono

/-- C2 counterexample: with overall value 1/2 and per-subgroup value 0
(difference magnitude 1/2 ≤ 1), the squared-error result 1/4 is strictly
smaller than the absolute-error result 1/2, refuting "squared ≥
absolute". -/
theorem diff_per_subgroup_squared_counterexample :
    diff_per_subgroup_from_overall [("a", [1/2])] [("a_vals", [[0]])] [["a"]]
        "_vals" true = .ok [("a", 1/4)] ∧
    diff_per_subgroup_from_overall [("a", [1/2])] [("a_vals", [[0]])] [["a"]]
        "_vals" false = .ok [("a", 1/2)] ∧
    ¬((1 : ℚ)/4 ≥ (1 : ℚ)/2) := by
  refine ⟨?_, ?_, by norm_num⟩
  · rw [diff_single_family [("a", [1/2])] [("a_vals", [[0]])] ["a"] "a"
      [1/2] [[0]] "_vals" true (by rfl) (by rfl) (by rfl)]
    norm_num [calculate_error]
  · rw [diff_single_family [("a", [1/2])] [("a_vals", [[0]])] ["a"] "a"
      [1/2] [[0]] "_vals" false (by rfl) (by rfl) (by rfl)]
    norm_num [calculate_error]

/-- Witness for C2 (amended) at a concrete one-family, one-subgroup
setup. -/
theorem diff_per_subgroup_from_overall_spec_witness :
    ∃ vT vF vT' vF',
      diff_per_subgroup_from_overall [("a", [1/2])] [("a_vals", [[0]])]
        [["a"]] "_vals" true = .ok [("a", vT)] ∧
      diff_per_subgroup_from_overall [("a", [1/2])] [("a_vals", [[0]])]
        [["a"]] "_vals" false = .ok [("a", vF)] ∧
      diff_per_subgroup_from_overall [("a", [1/2])] [("a_vals", [[0]])]
        [["a"]] "_vals" true = .ok [("a", vT')] ∧
      diff_per_subgroup_from_overall [("a", [1/2])] [("a_vals", [[0]])]
        [["a"]] "_vals" false = .ok [("a", vF')] ∧
      vT ≤ vF ∧ vT ≤ vT' ∧ vF ≤ vF' :=
  diff_per_subgroup_from_overall_spec ["a"] "a" [1/2] [[0]] [[0]]
    [("a", [1/2])] [("a_vals", [[0]])] [("a_vals", [[0]])] "_vals"
    (by rfl) (by rfl) (by rfl) (by rfl)
    (by
      intro l hl p hp
      fin_cases hl
      fin_cases hp
      rw [abs_le]
      constructor <;> norm_num)
    rfl (fun _ _ => rfl) (fun _ _ _ => le_refl _)

theorem zip_sum_eq_min (sq : Bool) : ∀ (xs l : List ℚ),
    ((xs.zip l).map fun p => calculate_error sq p.1 p.2).sum
      = ∑ i in Finset.range (min xs.length l.length),
          calculate_error sq (xs.getD i 0) (l.getD i 0) := by
  intro xs
  induction xs with
  | nil => intro l; simp
  | cons x xs ih =>
    intro l
    cases l with
    | nil => simp
    | cons y ly =>
      simp only [List.zip_cons_cons, List.map_cons, List.sum_cons,
        List.length_cons, Nat.succ_min_succ]
      rw [Finset.sum_range_succ']
      simp only [List.getD_cons_succ, List.getD_cons_zero]
      rw [ih ly]
      ring

/-- C10: with mismatched lengths between the family's overall per-model
list and a subgroup's per-model list, `diff_per_subgroup_from_overall`
raises no error: `zip` silently pairs the entries up to the shorter
length and the excess entries of the longer list are ignored. -/
theorem diff_per_subgroup_from_overall_truncates
    (fams : List String) (family_name : String) (xs : List ℚ)
    (rows : List (List ℚ)) (overall : List (String × List ℚ))
    (table : List (String × List (List ℚ)))
    (metric_column : String) (squared_error : Bool)
    (hname : model_family_name fams = Except.ok family_name)
    (hov : overall.lookup family_name = some xs)
    (htab : table.lookup (family_name ++ metric_column) = some rows) :
    diff_per_subgroup_from_overall overall table [fams] metric_column
        squared_error =
      Except.ok [(family_name,
        (rows.map fun l => ∑ i in Finset.range (min xs.length l.length),
          calculate_error squared_error (xs.getD i 0) (l.getD i 0)).sum)] := by
  rw [diff_single_family overall table fams family_name xs rows
    metric_column squared_error hname hov htab]
  have hcg : (rows.map fun l => ((xs.zip l).map fun p =>
        calculate_error squared_error p.1 p.2).sum)
      = rows.map fun l => ∑ i in Finset.range (min xs.length l.length),
          calculate_error squared_error (xs.getD i 0) (l.getD i 0) := by
    apply List.map_congr_left
    intro l _
    exact zip_sum_eq_min squared_error xs l
  rw [hcg]

/-- Witness for C10: the overall list `[1, 2]` has two entries but the
subgroup list `[0]` only one; the call succeeds and sums over the single
common index. -/
theorem diff_per_subgroup_from_overall_truncates_witness :
    diff_per_subgroup_from_overall [("a", [1, 2])] [("a_v", [[0]])] [["a"]]
        "_v" false =
      Except.ok [("a",
        (([[0]] : List (List ℚ)).map fun l =>
          ∑ i in Finset.range (min ([(1 : ℚ), 2]).length l.length),
            calculate_error false (([(1 : ℚ), 2]).getD i 0) (l.getD i 0)).sum)] :=
  diff_per_subgroup_from_overall_truncates ["a"] "a" [1, 2] [[0]]
    [("a", [1, 2])] [("a_v", [[0]])] "_v" false (by rfl) (by rfl) (by rfl)

/-- A dynamically typed Python value, as far as the threshold parameter is
concerned. -/
inductive PyVal where
  | pfloat (q : ℚ)
  | pint (z : ℤ)
  | pstr (s : String)
  | pbool (b : Bool)
  deriving DecidableEq, Repr

/-- The polymorphic `threshold` parameter: a scalar value or a dict from
model name to value. -/
inductive PyThreshold where
  | scalar (v : PyVal)
  | dict (m : List (String × PyVal))
  deriving DecidableEq, Repr

/-- The rates dict returned by `compute_confusion_rates`; `recallValue`
embeds the Python key `'recall'` (`recall` is a reserved word here). -/
structure ConfusionRates where
  tpr : ℚ
  tnr : ℚ
  fpr : ℚ
  fnr : ℚ
  precision : ℚ
  recallValue : ℚ
  deriving DecidableEq, Repr

/-- Embeds `compute_confusion_rates(df, score_col, label_col, threshold)`.
A zero denominator raises `ZeroDivisionError` (Python division of the
integer counts), checked in the order the source computes the rates:
`tpr`, then `tnr`, then `precision`. -/
def compute_confusion_rates (df : List Row) (score_col label_col : String)
    (threshold : ℚ) : Except PyErr ConfusionRates :=
  let confusion := confusion_matrix_counts df score_col label_col threshold
  let actual_positives := confusion.tp + confusion.fn
  let actual_negatives := confusion.tn + confusion.fp
  if actual_positives = 0 then .error .zeroDivisionError
  else if actual_negatives = 0 then .error .zeroDivisionError
  else if confusion.tp + confusion.fp = 0 then .error .zeroDivisionError
  else
    let tpr := (confusion.tp : ℚ) / (actual_positives : ℚ)
    let tnr := (confusion.tn : ℚ) / (actual_negatives : ℚ)
    .ok ⟨tpr, tnr, 1 - tnr, 1 - tpr,
      (confusion.tp : ℚ) / ((confusion.tp : ℚ) + (confusion.fp : ℚ)), tpr⟩

/-- Modelled from the spec: `np.mean` (NumPy, not part of this
repository); NaN (`none`) on an empty list. -/
def pymean (l : List ℚ) : Option ℚ :=
  if l.length = 0 then none else some (l.sum / (l.length : ℚ))

/-- Modelled from the spec: `np.median`; sorts and takes the middle
element (odd length) or the average of the two middle elements (even
length); NaN (`none`) on an empty list. -/
def pymedian (l : List ℚ) : Option ℚ :=
  let s := l.insertionSort (· ≤ ·)
  if l.length = 0 then none
  else if l.length % 2 = 1 then some (s.getD (l.length / 2) 0)
  else some ((s.getD (l.length / 2 - 1) 0 + s.getD (l.length / 2) 0) / 2)

/-- Modelled from the spec: the square of `np.std` (the population
variance); NaN (`none`) on an empty list.  The square root needed for
`np.std` itself is irrational in general, so the record stores the
variance — an encoding that preserves order, equality and definedness. -/
def pyvariance (l : List ℚ) : Option ℚ :=
  match pymean l with
  | none => none
  | some m => some ((l.map fun x => (x - m) ^ 2).sum / (l.length : ℚ))

/-- A cell of the output record of `per_subgroup_negative_rates`. -/
inductive Cell where
  | str (s : Option String)
  | nat (n : ℕ)
  | onum (v : Option ℚ)
  | nums (l : List ℚ)
  deriving DecidableEq, Repr

/-- Embeds
`threshold[model_name] if isinstance(threshold, dict) else threshold`
followed by `assert isinstance(model_threshold, float)`: a missing dict
entry raises `KeyError`, a non-float entry `AssertionError`. -/
def resolve_model_threshold (threshold : PyThreshold) (model_name : String) :
    Except PyErr ℚ := do
  let model_threshold ← match threshold with
    | .dict m => pydictGet m model_name
    | .scalar v => pure v
  match model_threshold with
  | .pfloat q => pure q
  | _ => .error .assertionError

/-- The `for model_name in model_family` loop of
`per_subgroup_negative_rates`, accumulating `family_rates` in order. -/
def family_rates_loop (subgroup_subset : List Row) (label_col : String)
    (threshold : PyThreshold) :
    List String → Except PyErr (List ConfusionRates)
  | [] => pure []
  | model_name :: rest => do
    let q ← resolve_model_threshold threshold model_name
    let model_rates ← compute_confusion_rates subgroup_subset model_name
      label_col q
    let more ← family_rates_loop subgroup_subset label_col threshold rest
    pure (model_rates :: more)

/-- The per-family fields `subgroup_record.update({...})` adds: median,
mean, std (stored squared, see `pyvariance`) and raw values of the
`tnr`s and `fnr`s of the family, keyed by family name. -/
def family_record_fields (family_name : String)
    (family_rates : List ConfusionRates) : List (String × Cell) :=
  let tnrs := family_rates.map (·.tnr)
  let fnrs := family_rates.map (·.fnr)
  [(family_name ++ "_tnr_median", .onum (pymedian tnrs)),
   (family_name ++ "_tnr_mean", .onum (pymean tnrs)),
   (family_name ++ "_tnr_std", .onum (pyvariance tnrs)),
   (family_name ++ "_tnr_values", .nums tnrs),
   (family_name ++ "_fnr_median", .onum (pymedian fnrs)),
   (family_name ++ "_fnr_mean", .onum (pymean fnrs)),
   (family_name ++ "_fnr_std", .onum (pyvariance fnrs)),
   (family_name ++ "_fnr_values", .nums fnrs)]

/-- The `for model_family in model_families` loop of
`per_subgroup_negative_rates`, returning the record fields it adds. -/
def families_loop (subgroup_subset : List Row) (label_col : String)
    (threshold : PyThreshold) :
    List (List String) → Except PyErr (List (String × Cell))
  | [] => pure []
  | model_family :: rest => do
    let family_name ← model_family_name model_family
    let family_rates ← family_rates_loop subgroup_subset label_col threshold
      model_family
    let more ← families_loop subgroup_subset label_col threshold rest
    pure (family_record_fields family_name family_rates ++ more)

/-- Embeds `per_subgroup_negative_rates(df, subgroups, model_families,
threshold, label_col)`: one record per subgroup (`None` means the whole
dataset), holding the subgroup name, subset size and the per-family rate
summaries. -/
def per_subgroup_negative_rates (df : List Row)
    (subgroups : List (Option String)) (model_families : List (List String))
    (threshold : PyThreshold) (label_col : String) :
    Except PyErr (List (List (String × Cell))) :=
  subgroups.foldlM (fun records subgroup => do
    let subgroup_subset := match subgroup with
      | none => df
      | some g => df.filter fun r => r.boolCol g
    let fields ← families_loop subgroup_subset label_col threshold
      model_families
    pure (records ++ [("subgroup", Cell.str subgroup) ::
      ("subset_size", Cell.nat subgroup_subset.length) :: fields])) []

theorem except_error_bind {ε α β : Type} (e : ε) (f : α → Except ε β) :
    (Except.error e : Except ε α) >>= f = .error e := rfl

theorem resolve_dict_ok (m : List (String × PyVal)) (model_name : String)
    (q : ℚ) (h : resolve_model_threshold (.dict m) model_name = .ok q) :
    m.lookup model_name = some (.pfloat q) := by
  simp only [resolve_model_threshold] at h
  cases hl : m.lookup model_name with
  | none =>
    rw [show pydictGet m model_name = .error .keyError by
      simp [pydictGet, hl]] at h
    simp [except_error_bind] at h
  | some v =>
    rw [show pydictGet m model_name = .ok v by simp [pydictGet, hl]] at h
    cases v with
    | pfloat q' =>
      rw [except_ok_bind] at h
      have hq : q' = q := by
        simpa [pure, Except.pure] using h
      rw [hq]
    | pint z => simp [except_ok_bind] at h
    | pstr s => simp [except_ok_bind] at h
    | pbool b => simp [except_ok_bind] at h

theorem family_rates_loop_ok (s : List Row) (label_col : String)
    (m : List (String × PyVal)) :
    ∀ (models : List String) (rates : List ConfusionRates),
      family_rates_loop s label_col (.dict m) models = .ok rates →
      ∀ mn ∈ models, ∃ q, m.lookup mn = some (.pfloat q) := by
  intro models
  induction models with
  | nil =>
    intro rates _ mn hmn
    simp at hmn
  | cons mn0 rest ih =>
    intro rates h mn hmn
    simp only [family_rates_loop] at h
    cases hr : resolve_model_threshold (.dict m) mn0 with
    | error e => rw [hr, except_error_bind] at h; exact Except.noConfusion h
    | ok q0 =>
      rw [hr, except_ok_bind] at h
      cases hc : compute_confusion_rates s mn0 label_col q0 with
      | error e => rw [hc, except_error_bind] at h; exact Except.noConfusion h
      | ok r0 =>
        rw [hc, except_ok_bind] at h
        cases hrec : family_rates_loop s label_col (.dict m) rest with
        | error e =>
          rw [hrec, except_error_bind] at h
          exact Except.noConfusion h
        | ok more =>
          rcases List.mem_cons.mp hmn with rfl | hmem
          · exact ⟨q0, resolve_dict_ok m mn q0 hr⟩
          · exact ih more hrec mn hmem

theorem families_loop_ok (s : List Row) (label_col : String)
    (m : List (String × PyVal)) :
    ∀ (fams : List (List String)) (r : List (String × Cell)),
      families_loop s label_col (.dict m) fams = .ok r →
      ∀ fam ∈ fams, ∀ mn ∈ fam, ∃ q, m.lookup mn = some (.pfloat q) := by
  intro fams
  induction fams with
  | nil =>
    intro r _ fam hfam
    simp at hfam
  | cons fam0 rest ih =>
    intro r h fam hfam
    simp only [families_loop] at h
    cases hn : model_family_name fam0 with
    | error e => rw [hn, except_error_bind] at h; exact Except.noConfusion h
    | ok family_name =>
      rw [hn, except_ok_bind] at h
      cases hfr : family_rates_loop s label_col (.dict m) fam0 with
      | error e => rw [hfr, except_error_bind] at h; exact Except.noConfusion h
      | ok rates =>
        rw [hfr, except_ok_bind] at h
        cases hrec : families_loop s label_col (.dict m) rest with
        | error e =>
          rw [hrec, except_error_bind] at h
          exact Except.noConfusion h
        | ok more =>
          rcases List.mem_cons.mp hfam with rfl | hmem
          · exact family_rates_loop_ok s label_col m fam rates hfr
          · exact ih more hrec fam hmem

/-- C8: with a per-model threshold mapping, `per_subgroup_negative_rates`
is rejected by the `assert isinstance(model_threshold, float)` before
producing any result when a consulted entry is not a float: a successful
run over at least one subgroup implies every model of every family has a
float entry in the mapping. -/
theorem per_subgroup_negative_rates_float_contract
    (df : List Row) (subgroups : List (Option String))
    (model_families : List (List String)) (m : List (String × PyVal))
    (label_col : String) (out : List (List (String × Cell)))
    (hok : per_subgroup_negative_rates df subgroups model_families
      (.dict m) label_col = .ok out)
    (hne : subgroups ≠ []) :
    ∀ fam ∈ model_families, ∀ mn ∈ fam,
      ∃ q, m.lookup mn = some (.pfloat q) := by
  rcases subgroups with _ | ⟨sg, rest⟩
  · exact absurd rfl hne
  clear hne
  cases sg with
  | none =>
    simp only [per_subgroup_negative_rates, List.foldlM] at hok
    cases hfl : families_loop df label_col (.dict m) model_families with
    | error e =>
      rw [hfl] at hok
      simp only [except_error_bind] at hok
      exact Except.noConfusion hok
    | ok fields =>
      exact families_loop_ok df label_col m model_families fields hfl
  | some g =>
    simp only [per_subgroup_negative_rates, List.foldlM] at hok
    cases hfl : families_loop (df.filter fun r => r.boolCol g) label_col
        (.dict m) model_families with
    | error e =>
      rw [hfl] at hok
      simp only [except_error_bind] at hok
      exact Except.noConfusion hok
    | ok fields =>
      exact families_loop_ok _ label_col m model_families fields hfl

/-- Witness for C8: a two-row dataset, the whole-dataset subgroup `None`,
one family `["a"]` and the mapping `{"a": 0.5}` (a float) run to
completion, so the theorem applies and yields the float entry. -/
theorem per_subgroup_negative_rates_float_contract_witness :
    ∃ q, ([("a", PyVal.pfloat (1/2))].lookup "a") = some (PyVal.pfloat q) := by
  have hok : per_subgroup_negative_rates
      [⟨fun _ => 3/5, fun _ => true⟩, ⟨fun _ => 2/5, fun _ => false⟩]
      [none] [["a"]] (.dict [("a", PyVal.pfloat (1/2))]) "label" =
      .ok [[("subgroup", Cell.str none), ("subset_size", Cell.nat 2),
        ("a_tnr_median", Cell.onum (some 1)),
        ("a_tnr_mean", Cell.onum (some 1)),
        ("a_tnr_std", Cell.onum (some 0)),
        ("a_tnr_values", Cell.nums [1]),
        ("a_fnr_median", Cell.onum (some 0)),
        ("a_fnr_mean", Cell.onum (some 0)),
        ("a_fnr_std", Cell.onum (some 0)),
        ("a_fnr_values", Cell.nums [0])]] := by
    norm_num [per_subgroup_negative_rates, List.foldlM, families_loop,
      family_rates_loop, resolve_model_threshold, pydictGet,
      compute_confusion_rates, confusion_matrix_counts, List.countP_cons,
      family_record_fields, pymedian, pymean, pyvariance, model_family_name,
      commonprefix, stripUnderscores, stripChars, List.insertionSort,
      except_ok_bind]
    rfl
  exact per_subgroup_negative_rates_float_contract
    [⟨fun _ => 3/5, fun _ => true⟩, ⟨fun _ => 2/5, fun _ => false⟩]
    [none] [["a"]] [("a", PyVal.pfloat (1/2))] "label" _ hok (by simp)
    ["a"] (by simp) "a" (by simp)

end ModelBiasAnalysis
